import Mathlib

/-!
Verification of the regex core of a line-oriented text search utility
(`src/re/mod.rs`, `src/re/pattern.rs`, `src/re/letter.rs`).

Shallow embedding conventions:
* A Rust `&str` (always valid UTF-8) is modelled as `List Char`, one `Char`
  per Unicode scalar value.  The `Letters` cursor of `letter.rs` yields, on
  valid UTF-8, exactly one scalar-value slice per step whose byte length is
  the scalar's UTF-8 width, so `Letters::next` is modelled by taking the
  head of the list and `l.len()` by `Char.utf8Size`.
* Byte-index slicing `&s[k..]` / `&s[i..j]` is modelled by `byteDrop` /
  `byteDrop` + `byteTake`, which return `none` exactly when Rust would
  panic (index out of bounds or not on a character boundary).
* Every matcher operation returns a `Res`: `.ok v` is a normal return,
  `.abort` models a Rust panic (slice out of bounds), and `.ofuel` is
  returned when the `fuel` bound on the `while` loops of
  `Pattern::match_size` (`MoreThanZero`/`MoreThanOne`) is exhausted; those
  loops are the only places fuel is consumed, so for patterns whose
  evaluation never reaches such a loop the result is independent of `fuel`,
  and a genuinely diverging Rust loop is modelled by returning `.ofuel` for
  every fuel.
* `Regex::new` panics on leftover pattern text; the panic is modelled by
  returning `none`.
-/

/-- Result of a matcher computation: normal return, Rust panic, or fuel
exhaustion of a potentially diverging loop. -/
inductive Res (α : Type) where
  | ok : α → Res α
  | abort : Res α
  | ofuel : Res α
deriving DecidableEq, Repr

/-- Pattern node tree, from `pattern.rs` (`enum Pattern`).  `Lit` holds the
single scalar value of the grapheme slice. -/
inductive Pattern where
  | Lit : Char → Pattern
  | AlphaNumeric : Pattern
  | Digit : Pattern
  | Wildcard : Pattern
  | PGroup : List Pattern → Pattern
  | NGroup : List Pattern → Pattern
  | MoreThanZero : Pattern → Pattern
  | MoreThanOne : Pattern → Pattern
  | ZeroOrOne : Pattern → Pattern
  | Alternation : List (List Pattern) → Pattern

/-- Byte length of a string, summing UTF-8 widths (`str::len`). -/
def byteLen : List Char → Nat
  | [] => 0
  | c :: cs => c.utf8Size + byteLen cs

/-- Model of `&s[k..]`: `some` suffix when `k` is on a character boundary
and within bounds, `none` when Rust would panic. -/
def byteDrop : Nat → List Char → Option (List Char)
  | 0, s => some s
  | _+1, [] => none
  | n+1, c :: cs => if n + 1 < c.utf8Size then none else byteDrop (n + 1 - c.utf8Size) cs

/-- Model of `&s[..k]`: `some` prefix when `k` is on a character boundary
and within bounds, `none` when Rust would panic. -/
def byteTake : Nat → List Char → Option (List Char)
  | 0, _ => some []
  | _+1, [] => none
  | n+1, c :: cs =>
    if n + 1 < c.utf8Size then none
    else (byteTake (n + 1 - c.utf8Size) cs).map (fun t => c :: t)

/-- From `pattern.rs`: `"abcdefghijklmnopqrstuvwxyzABCDEFGHIJKLMNOPQRSTUVWXYZ".contains(s)`. -/
def is_ascii_alphabet (c : Char) : Bool :=
  "abcdefghijklmnopqrstuvwxyzABCDEFGHIJKLMNOPQRSTUVWXYZ".contains c

/-- From `pattern.rs`: `"0123456789".contains(s)`. -/
def is_ascii_digit (c : Char) : Bool :=
  "0123456789".contains c

/-- From `pattern.rs`: alphabet, digit, or underscore. -/
def is_ascii_alphanumeric (c : Char) : Bool :=
  is_ascii_alphabet c || is_ascii_digit c || c == '_'

/-- Model of `Pattern::evaluate_with_next`: quantifier nodes whose evaluation is
deferred until the next node fixes their right boundary. -/
def Pattern.evaluate_with_next : Pattern → Bool
  | .MoreThanZero _ => true
  | .MoreThanOne _ => true
  | .ZeroOrOne _ => true
  | _ => false

mutual

/-- Computable structural size of a pattern node, used as the termination
measure of the matcher. -/
@[simp] def Pattern.psize : Pattern → Nat
  | .Lit _ => 1
  | .AlphaNumeric => 1
  | .Digit => 1
  | .Wildcard => 1
  | .PGroup ps => 1 + psizeL ps
  | .NGroup ps => 1 + psizeL ps
  | .MoreThanZero p => 1 + p.psize
  | .MoreThanOne p => 1 + p.psize
  | .ZeroOrOne p => 1 + p.psize
  | .Alternation bs => 1 + psizeLL bs

/-- Size of a list of pattern nodes. -/
@[simp] def psizeL : List Pattern → Nat
  | [] => 1
  | p :: ps => 1 + p.psize + psizeL ps

/-- Size of a list of alternation branches. -/
@[simp] def psizeLL : List (List Pattern) → Nat
  | [] => 1
  | b :: bs => 1 + psizeL b + psizeLL bs

end

/-- Measure helper for the deferred-quantifier argument of `seq_loop`. -/
@[simp] def prevSize : Option Pattern → Nat
  | none => 0
  | some p => p.psize

mutual

/-- Model of `Pattern::match_size(&self, s)` from `pattern.rs` lines 40-104: how many
bytes of a prefix of `s` the single node matches. -/
def Pattern.match_size (fuel : Nat) (p : Pattern) (s : List Char) : Res (Option Nat) :=
  match p with
  | .Lit c =>
    match s with
    | [] => .ok none
    | l :: _ => .ok (if l = c then some l.utf8Size else none)
  | .AlphaNumeric =>
    match s with
    | [] => .ok none
    | l :: _ => .ok (if is_ascii_alphanumeric l then some l.utf8Size else none)
  | .Digit =>
    match s with
    | [] => .ok none
    | l :: _ => .ok (if is_ascii_digit l then some l.utf8Size else none)
  | .Wildcard =>
    match s with
    | [] => .ok none
    | l :: _ => .ok (some l.utf8Size)
  | .PGroup pats => pg_loop fuel pats s
  | .NGroup pats => ng_loop fuel pats s
  | .MoreThanZero pat =>
    match mtz_loop fuel pat s 0 with
    | .ok acc => .ok (some acc)
    | .abort => .abort
    | .ofuel => .ofuel
  | .MoreThanOne pat =>
    match Pattern.match_size fuel pat s with
    | .ok none => .ok none
    | .ok (some size) =>
      match mtz_loop fuel pat s size with
      | .ok acc => .ok (some acc)
      | .abort => .abort
      | .ofuel => .ofuel
    | .abort => .abort
    | .ofuel => .ofuel
  | .ZeroOrOne pat =>
    match Pattern.match_size fuel pat s with
    | .ok (some size) => .ok (some size)
    | .ok none => .ok (some 0)
    | .abort => .abort
    | .ofuel => .ofuel
  | .Alternation pats => alt_loop fuel pats s
termination_by (p.psize, 0, 0)

/-- The `PGroup` member scan: first member whose `match_size` succeeds. -/
def pg_loop (fuel : Nat) (pats : List Pattern) (s : List Char) : Res (Option Nat) :=
  match pats with
  | [] => .ok none
  | p :: rest =>
    match Pattern.match_size fuel p s with
    | .ok (some n) => .ok (some n)
    | .ok none => pg_loop fuel rest s
    | .abort => .abort
    | .ofuel => .ofuel
termination_by (psizeL pats, 1, 0)

/-- The `NGroup` member scan: succeeds with the fixed length 1 (the
`FIXME` in the source) when every member fails. -/
def ng_loop (fuel : Nat) (pats : List Pattern) (s : List Char) : Res (Option Nat) :=
  match pats with
  | [] => .ok (some 1)
  | p :: rest =>
    match Pattern.match_size fuel p s with
    | .ok none => ng_loop fuel rest s
    | .ok (some _) => .ok none
    | .abort => .abort
    | .ofuel => .ofuel
termination_by (psizeL pats, 1, 0)

/-- The `Alternation` branch scan: first branch whose sequence match
(`search_match_size`) succeeds. -/
def alt_loop (fuel : Nat) (branches : List (List Pattern)) (s : List Char) : Res (Option Nat) :=
  match branches with
  | [] => .ok none
  | b :: rest =>
    match seq_loop fuel s b none 0 with
    | .ok (some n) => .ok (some n)
    | .ok none => alt_loop fuel rest s
    | .abort => .abort
    | .ofuel => .ofuel
termination_by (psizeLL branches, 1, 0)

/-- The `while let` loop of `MoreThanZero`/`MoreThanOne`: repeatedly apply
the inner node at byte offset `acc` of `s` (`&s[acc..]`), summing consumed
sizes, until it fails.  The only fuel-consuming loop: the inner node can
succeed while consuming zero bytes, and the offset can also overrun the
string, which panics at the slice. -/
def mtz_loop (fuel : Nat) (pat : Pattern) (s : List Char) (acc : Nat) : Res Nat :=
  match fuel with
  | 0 => .ofuel
  | f + 1 =>
    match byteDrop acc s with
    | none => .abort
    | some t =>
      match Pattern.match_size (f + 1) pat t with
      | .ok (some size) => mtz_loop f pat s (acc + size)
      | .ok none => .ok acc
      | .abort => .abort
      | .ofuel => .ofuel
termination_by (pat.psize, 4, fuel)

/-- Model of the `Pattern::search_match_pos` body (`pattern.rs` lines 18-31): scan the
remainder `rem` of the string (whose total byte length is `slen`) for the
first byte offset at which the node matches; `pos` is the offset of `rem`. -/
def smp_loop (fuel : Nat) (p : Pattern) (rem : List Char) (pos slen : Nat) : Res (Option Nat) :=
  match Pattern.match_size fuel p rem with
  | .abort => .abort
  | .ofuel => .ofuel
  | .ok (some _) => .ok (some pos)
  | .ok none =>
    match rem with
    | [] => .ok none
    | l :: rest =>
      if pos + l.utf8Size ≥ slen then .ok none
      else smp_loop fuel p rest (pos + l.utf8Size) slen
termination_by (p.psize, 3, rem.length)

/-- The sequence-walking loop shared by `search_match_size` (`pattern.rs`
lines 107-138) and the body of `Regex::is_match` (`mod.rs` lines 55-98),
which duplicates it verbatim with absolute offsets: walk `pats` from byte
offset `cur` of `s`, deferring a quantifier node in `prev` and resolving it
when the following node finds its start position. -/
def seq_loop (fuel : Nat) (s : List Char) (pats : List Pattern) (prev : Option Pattern) (cur : Nat) :
    Res (Option Nat) :=
  match pats with
  | [] =>
    match prev with
    | none => .ok (some cur)
    | some pv =>
      match byteDrop cur s with
      | none => .abort
      | some t =>
        match Pattern.match_size fuel pv t with
        | .ok (some size) => .ok (some (cur + size))
        | .ok none => .ok none
        | .abort => .abort
        | .ofuel => .ofuel
  | pat :: rest =>
    if cur > byteLen s then .ok none
    else if pat.evaluate_with_next then seq_loop fuel s rest (some pat) cur
    else
      match prev with
      | some pv =>
        match byteDrop cur s with
        | none => .abort
        | some t =>
          match smp_loop fuel pat t 0 (byteLen t) with
          | .abort => .abort
          | .ofuel => .ofuel
          | .ok none => .ok none
          | .ok (some b) =>
            match byteTake b t with
            | none => .abort
            | some u =>
              match Pattern.match_size fuel pv u with
              | .ok none => .ok none
              | .abort => .abort
              | .ofuel => .ofuel
              | .ok (some size1) =>
                match byteDrop (cur + size1) s with
                | none => .abort
                | some t2 =>
                  match Pattern.match_size fuel pat t2 with
                  | .ok (some size2) => seq_loop fuel s rest none (cur + size1 + size2)
                  | .ok none => .ok none
                  | .abort => .abort
                  | .ofuel => .ofuel
      | none =>
        match byteDrop cur s with
        | none => .abort
        | some t2 =>
          match Pattern.match_size fuel pat t2 with
          | .ok (some size2) => seq_loop fuel s rest none (cur + size2)
          | .ok none => .ok none
          | .abort => .abort
          | .ofuel => .ofuel
termination_by (psizeL pats + prevSize prev, 2, 0)

end

/-- Model of `Pattern::search_match_pos(&self, s)`: first byte offset of `s` at which
the node matches. -/
def Pattern.search_match_pos (fuel : Nat) (p : Pattern) (s : List Char) : Res (Option Nat) :=
  smp_loop fuel p s 0 (byteLen s)

/-- Model of `search_match_size(patterns, s)` from `pattern.rs`. -/
def search_match_size (fuel : Nat) (patterns : List Pattern) (s : List Char) : Res (Option Nat) :=
  seq_loop fuel s patterns none 0

/-- Model of `struct Regex` from `mod.rs`: anchor flags and the parsed node sequence. -/
structure Regex where
  start_anchor : Bool
  end_anchor : Bool
  patterns : List Pattern

/-- The tail of `Regex::is_match` after the start offset `cur` is known:
run the sequence loop, then apply the end-anchor check (`mod.rs` lines
55-104). -/
def match_from (fuel : Nat) (ea : Bool) (patterns : List Pattern) (s : List Char) (cur : Nat) :
    Res Bool :=
  match seq_loop fuel s patterns none cur with
  | .abort => .abort
  | .ofuel => .ofuel
  | .ok none => .ok false
  | .ok (some fin) => .ok (if ea then decide (fin = byteLen s) else true)

/-- Model of `Regex::is_match` (`mod.rs` lines 41-105): without a start anchor the
start offset is searched with the first node's `search_match_pos`; with a
start anchor it is forced to 0. -/
def Regex.is_match (fuel : Nat) (r : Regex) (s : List Char) : Res Bool :=
  if r.start_anchor then
    match_from fuel r.end_anchor r.patterns s 0
  else
    match r.patterns.head? with
    | none => .ok false
    | some p =>
      match Pattern.search_match_pos fuel p s with
      | .abort => .abort
      | .ofuel => .ofuel
      | .ok none => .ok false
      | .ok (some pos) => match_from fuel r.end_anchor r.patterns s pos

/-- Model of `enum PatternChar` from `pattern.rs`. -/
inductive PatternChar where
  | Itself : Pattern → PatternChar
  | MoreThanZero : PatternChar
  | MoreThanOne : PatternChar
  | ZeroOrOne : PatternChar
  | PGroupOpen : PatternChar
  | NGroupOpen : PatternChar
  | GroupClose : PatternChar
  | AltOpen : PatternChar
  | AltClose : PatternChar
  | AltDelimiter : PatternChar

/-- Model of `PatternChar::pick`: classify the first grapheme(s) of the pattern text
and return the rest.  Unknown escapes become literals. -/
def PatternChar.pick (expr : List Char) : Option (PatternChar × List Char) :=
  match expr with
  | [] => none
  | c :: rest =>
    if c = '\\' then
      match rest with
      | [] => none
      | l :: r =>
        if l = 'w' then some (.Itself .AlphaNumeric, r)
        else if l = 'd' then some (.Itself .Digit, r)
        else some (.Itself (.Lit l), r)
    else if c = '.' then some (.Itself .Wildcard, rest)
    else if c = '[' then
      if rest.head? = some '^' then some (.NGroupOpen, rest.tail)
      else some (.PGroupOpen, rest)
    else if c = ']' then some (.GroupClose, rest)
    else if c = '+' then some (.MoreThanOne, rest)
    else if c = '*' then some (.MoreThanZero, rest)
    else if c = '?' then some (.ZeroOrOne, rest)
    else if c = '(' then some (.AltOpen, rest)
    else if c = ')' then some (.AltClose, rest)
    else if c = '|' then some (.AltDelimiter, rest)
    else some (.Itself (.Lit c), rest)

/-- Model of `struct ParsedPatterns` from `pattern.rs`. -/
structure ParsedPatterns where
  inner : List Pattern
  remaining : List Char
  last_char : Option PatternChar

/-- Model of `matches!(c, PatternChar::AltDelimiter)` on an optional char
(no decidable equality is needed, only this shape test). -/
def is_alt_delimiter : Option PatternChar → Bool
  | some .AltDelimiter => true
  | _ => false

/-- Quantifier handling in `parse_pattern`: pop the most recently completed
node and wrap it; popping from an empty sequence is a no-op (the `TODO` in
the source). -/
def push_quant (f : Pattern → Pattern) (patterns : List Pattern) : List Pattern :=
  match patterns.getLast? with
  | none => patterns
  | some p => patterns.dropLast ++ [f p]

/-- Calls of the recursive-descent parser: `.go` is the main
`parse_pattern` loop (`pattern.rs` lines 217-311) carrying the accumulated
sibling nodes, `.alt` is the alternation-branch loop inside the `AltOpen`
arm carrying the accumulated branches. -/
inductive ParseCall where
  | go : List Char → List Pattern → ParseCall
  | alt : List Char → List (List Pattern) → ParseCall

/-- Returns of the two parser entry points. -/
inductive ParseRet where
  | go : ParsedPatterns → ParseRet
  | alt : List (List Pattern) → List Char → ParseRet

/-- The recursive-descent parser, fuelled so that the recursion is
structural; `parse_pattern` below supplies fuel `2 * length + 1`, which is
proven sufficient (`parse_step_progress`), so the `none` (out of fuel) case
is unreachable from `parse_pattern`. -/
def parse_step : Nat → ParseCall → Option ParseRet
  | 0, _ => none
  | fuel+1, .go expr patterns =>
    match PatternChar.pick expr with
    | none => some (.go ⟨patterns, expr, none⟩)
    | some (chr, rest) =>
      match chr with
      | .Itself p => parse_step fuel (.go rest (patterns ++ [p]))
      | .MoreThanZero => parse_step fuel (.go rest (push_quant .MoreThanZero patterns))
      | .MoreThanOne => parse_step fuel (.go rest (push_quant .MoreThanOne patterns))
      | .ZeroOrOne => parse_step fuel (.go rest (push_quant .ZeroOrOne patterns))
      | .PGroupOpen =>
        match parse_step fuel (.go rest []) with
        | some (.go pp) => parse_step fuel (.go pp.remaining (patterns ++ [.PGroup pp.inner]))
        | _ => none
      | .NGroupOpen =>
        match parse_step fuel (.go rest []) with
        | some (.go pp) => parse_step fuel (.go pp.remaining (patterns ++ [.NGroup pp.inner]))
        | _ => none
      | .GroupClose => some (.go ⟨patterns, rest, some .GroupClose⟩)
      | .AltOpen =>
        match parse_step fuel (.alt rest []) with
        | some (.alt inners rem) => parse_step fuel (.go rem (patterns ++ [.Alternation inners]))
        | _ => none
      | .AltClose => some (.go ⟨patterns, rest, some .AltClose⟩)
      | .AltDelimiter => some (.go ⟨patterns, rest, some .AltDelimiter⟩)
  | fuel+1, .alt expr inners =>
    match parse_step fuel (.go expr []) with
    | some (.go pp) =>
      if is_alt_delimiter pp.last_char then
        parse_step fuel (.alt pp.remaining (inners ++ [pp.inner]))
      else some (.alt (inners ++ [pp.inner]) pp.remaining)
    | _ => none

/-- Model of `parse_pattern(expr)` from `pattern.rs`. -/
def parse_pattern (expr : List Char) : ParsedPatterns :=
  match parse_step (2 * expr.length + 1) (.go expr []) with
  | some (.go pp) => pp
  | _ => ⟨[], expr, none⟩

/-- Anchor stripping of `Regex::new` (`mod.rs` lines 15-24): leading `^`
and, on the result, trailing `$`. -/
def strip_anchors (expr : List Char) : Bool × Bool × List Char :=
  let start_anchor := expr.head? == some '^'
  let expr1 := if start_anchor then expr.tail else expr
  let end_anchor := expr1.getLast? == some '$'
  let expr2 := if end_anchor then expr1.dropLast else expr1
  (start_anchor, end_anchor, expr2)

/-- Model of `Regex::new` (`mod.rs` lines 14-39).  The source panics when the parser
leaves text unconsumed; the panic is modelled as `none`. -/
def Regex.new (expr : List Char) : Option Regex :=
  let sa := (strip_anchors expr).1
  let ea := (strip_anchors expr).2.1
  let pp := parse_pattern (strip_anchors expr).2.2
  if pp.remaining.isEmpty then some ⟨sa, ea, pp.inner⟩ else none

/-- Rust `str::contains` for a literal needle, at scalar-value level:
some suffix position of `s` starts with `p`. -/
def strContains (s p : List Char) : Bool :=
  (List.range (s.length + 1)).any (fun i => p.isPrefixOf (s.drop i))

/-- Characters that `PatternChar::pick` treats specially, plus the two
anchor characters stripped by `Regex::new`. -/
def specials : List Char :=
  ['\\', '.', '[', ']', '+', '*', '?', '(', ')', '|', '^', '$']

/-- A pattern string consisting solely of literal characters. -/
def lit_only (p : List Char) : Bool :=
  p.all (fun c => !(specials.contains c))

/-- A grapheme outside the set matched by the group of `[^abc]`. -/
def non_abc (c : Char) : Bool :=
  !(c == 'a' || c == 'b' || c == 'c')

/-- Bound on the size a single node can report: at most one byte past the
end of the text (the overshoot is reachable through the `NegativeGroup`
defect). -/
def MSB (p : Pattern) : Prop :=
  ∀ fuel s n, Pattern.match_size fuel p s = .ok (some n) → n ≤ byteLen s + 1

/-- The node tree that `[^abc]` parses to. -/
def ngabc : Pattern :=
  .NGroup [.Lit 'a', .Lit 'b', .Lit 'c']

/-! Basic facts about byte-offset slicing. -/

theorem byteDrop_some_len :
    ∀ (s : List Char) (n : Nat) (t : List Char), byteDrop n s = some t → n + byteLen t = byteLen s := by
  intro s
  induction s with
  | nil =>
    intro n t h
    cases n with
    | zero => simp [byteDrop] at h; subst h; omega
    | succ m => simp [byteDrop] at h
  | cons c cs ih =>
    intro n t h
    cases n with
    | zero => simp [byteDrop] at h; subst h; omega
    | succ m =>
      rw [byteDrop] at h
      split at h
      · exact absurd h (by simp)
      · have := ih _ _ h
        have hw := Char.utf8Size_pos c
        simp only [byteLen] at *
        omega

theorem byteDrop_some_le {s : List Char} {n : Nat} {t : List Char}
    (h : byteDrop n s = some t) : n ≤ byteLen s := by
  have := byteDrop_some_len s n t h
  omega

theorem byteDrop_add :
    ∀ (s : List Char) (a b : Nat) (t : List Char),
      byteDrop a s = some t → byteDrop (a + b) s = byteDrop b t := by
  intro s
  induction s with
  | nil =>
    intro a b t h
    cases a with
    | zero => simp [byteDrop] at h; subst h; simp
    | succ m => simp [byteDrop] at h
  | cons c cs ih =>
    intro a b t h
    cases a with
    | zero => simp [byteDrop] at h; subst h; simp
    | succ m =>
      rw [byteDrop] at h
      split at h
      · exact absurd h (by simp)
      · rename_i hge
        have hw := Char.utf8Size_pos c
        have h2 := ih _ b _ h
        rw [show m + 1 + b = (m + b) + 1 by omega, byteDrop]
        split
        · rename_i hlt; omega
        · rw [show m + b + 1 - c.utf8Size = (m + 1 - c.utf8Size) + b by omega]
          exact h2

theorem byteTake_some_len :
    ∀ (s : List Char) (n : Nat) (u : List Char), byteTake n s = some u → byteLen u = n := by
  intro s
  induction s with
  | nil =>
    intro n u h
    cases n with
    | zero => simp [byteTake] at h; subst h; rfl
    | succ m => simp [byteTake] at h
  | cons c cs ih =>
    intro n u h
    cases n with
    | zero => simp [byteTake] at h; subst h; rfl
    | succ m =>
      rw [byteTake] at h
      split at h
      · exact absurd h (by simp)
      · rename_i hge
        have hw := Char.utf8Size_pos c
        simp only [Option.map_eq_some'] at h
        obtain ⟨u', hu', rfl⟩ := h
        have := ih _ _ hu'
        simp only [byteLen]
        omega

theorem byteLen_zero_iff {s : List Char} : byteLen s = 0 ↔ s = [] := by
  cases s with
  | nil => simp [byteLen]
  | cons c cs =>
    have := Char.utf8Size_pos c
    simp [byteLen]
    omega

theorem byteDrop_drop :
    ∀ (s : List Char) (n : Nat) (t : List Char),
      byteDrop n s = some t → ∃ k, k ≤ s.length ∧ s.drop k = t := by
  intro s
  induction s with
  | nil =>
    intro n t h
    cases n with
    | zero => simp [byteDrop] at h; exact ⟨0, by simp, by simp [h]⟩
    | succ m => simp [byteDrop] at h
  | cons c cs ih =>
    intro n t h
    cases n with
    | zero => simp [byteDrop] at h; exact ⟨0, by simp, by simp [h]⟩
    | succ m =>
      rw [byteDrop] at h
      split at h
      · exact absurd h (by simp)
      · obtain ⟨k, hk, hdrop⟩ := ih _ _ h
        exact ⟨k + 1, by simp; omega, by simpa using hdrop⟩

/-! Claim C1: the matcher can panic. -/

/-- C1 (code bug evaluation): the pattern `[^a]*` parses to
`MoreThanZero (NGroup [Lit a])`, and matching it against the line `"b"`
aborts: the `NegativeGroup` reports 1 consumed byte even on the empty
remainder, so the `MoreThanZero` loop overruns the string and the slice
`&s[acc..]` panics.  This refutes the claim that `is_match` never fails. -/
theorem c1_code_bug_eval :
    Regex.new ['[', '^', 'a', ']', '*'] =
      some ⟨false, false, [.MoreThanZero (.NGroup [.Lit 'a'])]⟩ ∧
    Regex.is_match 5 ⟨false, false, [.MoreThanZero (.NGroup [.Lit 'a'])]⟩ ['b'] = .abort := by
  refine ⟨rfl, ?_⟩
  simp [Regex.is_match, Pattern.search_match_pos, smp_loop, Pattern.match_size, mtz_loop,
    ng_loop, byteDrop, byteLen, match_from, seq_loop, Char.utf8Size]

/-! Claim C2: the matcher can fail to terminate. -/

theorem mtz_zoo_ofuel :
    ∀ fuel, mtz_loop fuel (.ZeroOrOne (.Lit 'a')) ['b'] 0 = .ofuel := by
  intro fuel
  induction fuel with
  | zero => simp [mtz_loop]
  | succ f ih =>
    rw [mtz_loop]
    simpa [byteDrop, Pattern.match_size] using ih

/-- C2 (code bug evaluation): the pattern `a?*` parses to
`MoreThanZero (ZeroOrOne (Lit a))`, and matching it against the line `"b"`
diverges for every fuel bound: the inner `ZeroOrOne` node succeeds while
consuming zero bytes, so the `MoreThanZero` loop never progresses.  This
refutes the claim that every matcher operation terminates. -/
theorem c2_code_bug_eval :
    Regex.new ['a', '?', '*'] =
      some ⟨false, false, [.MoreThanZero (.ZeroOrOne (.Lit 'a'))]⟩ ∧
    ∀ fuel, Regex.is_match fuel ⟨false, false, [.MoreThanZero (.ZeroOrOne (.Lit 'a'))]⟩ ['b'] =
      .ofuel := by
  refine ⟨rfl, fun fuel => ?_⟩
  have h := mtz_zoo_ofuel fuel
  simp [Regex.is_match, Pattern.search_match_pos, smp_loop, Pattern.match_size, h, byteLen]

/-! Counterexamples for C3 through C7, and claim C10. -/

/-- C3 counterexample: the all-literal pattern `ab` compiles, the line
`aab` contains `ab` as a substring, yet `is_match` returns `false`: the
facade tries the single position found by `search_match_pos` on the first
node (offset 0, the first `a`) and never retries at a later offset. -/
theorem c3_counterexample :
    Regex.new ['a', 'b'] = some ⟨false, false, [.Lit 'a', .Lit 'b']⟩ ∧
    Regex.is_match 9 ⟨false, false, [.Lit 'a', .Lit 'b']⟩ ['a', 'a', 'b'] = .ok false ∧
    strContains ['a', 'a', 'b'] ['a', 'b'] = true := by
  refine ⟨rfl, ?_, by decide⟩
  simp [Regex.is_match, Pattern.search_match_pos, smp_loop, Pattern.match_size,
    byteDrop, byteLen, match_from, seq_loop, Pattern.evaluate_with_next, Char.utf8Size]

/-- C4 counterexample: the unrecognized escape `\x` does not make
construction fail; it parses as the literal `x`. -/
theorem c4_counterexample :
    Regex.new ['\\', 'x'] = some ⟨false, false, [.Lit 'x']⟩ := rfl

/-- C5 counterexample: construction of the pattern `[abc`, whose group
scope is never closed, succeeds instead of signalling an invalid pattern. -/
theorem c5_counterexample : (Regex.new ['[', 'a', 'b', 'c']).isSome = true := rfl

/-- C5 amended: an unmatched `[` or `(` is treated as a scope implicitly
closed at the end of the pattern, and a dangling quantifier is silently
dropped (the pop is a no-op); no failure is signalled. -/
theorem c5_amended :
    Regex.new ['[', 'a', 'b', 'c'] =
      some ⟨false, false, [.PGroup [.Lit 'a', .Lit 'b', .Lit 'c']]⟩ ∧
    Regex.new ['(', 'a', 'b'] =
      some ⟨false, false, [.Alternation [[.Lit 'a', .Lit 'b']]]⟩ ∧
    Regex.new ['+', 'a'] = some ⟨false, false, [.Lit 'a']⟩ := ⟨rfl, rfl, rfl⟩

/-- C6 counterexample: `match_size` of a `NegativeGroup` on the empty
string reports 1 consumed byte, exceeding the byte length 0 of the text. -/
theorem c6_counterexample :
    Pattern.match_size 1 (.NGroup [.Lit 'a']) [] = .ok (some 1) ∧
    ¬ (1 ≤ byteLen []) := by
  refine ⟨?_, by simp [byteLen]⟩
  simp [Pattern.match_size, ng_loop]

/-- C7 counterexample: `[^abc]` matches the empty line (the
`NegativeGroup` succeeds on the empty remainder), so `is_match` returns
`true` where the claim requires `false`. -/
theorem c7_counterexample :
    Regex.new ['[', '^', 'a', 'b', 'c', ']'] =
      some ⟨false, false, [.NGroup [.Lit 'a', .Lit 'b', .Lit 'c']]⟩ ∧
    Regex.is_match 1 ⟨false, false, [.NGroup [.Lit 'a', .Lit 'b', .Lit 'c']]⟩ [] = .ok true := by
  refine ⟨rfl, ?_⟩
  simp [Regex.is_match, Pattern.search_match_pos, smp_loop, Pattern.match_size,
    ng_loop, byteDrop, byteLen, match_from, seq_loop, Pattern.evaluate_with_next]

/-- C10: the empty pattern builds an empty node sequence without anchors and
rejects every line (the unanchored start search over no nodes finds
nothing), while `^` builds the same empty sequence with the start-anchor
flag and accepts every line. -/
theorem c10_empty_pattern :
    Regex.new [] = some ⟨false, false, []⟩ ∧
    Regex.new ['^'] = some ⟨true, false, []⟩ ∧
    (∀ fuel (s : List Char), Regex.is_match fuel ⟨false, false, []⟩ s = .ok false) ∧
    (∀ fuel (s : List Char), Regex.is_match fuel ⟨true, false, []⟩ s = .ok true) := by
  refine ⟨rfl, rfl, fun fuel s => ?_, fun fuel s => ?_⟩
  · simp [Regex.is_match]
  · simp [Regex.is_match, match_from, seq_loop]

/-! Claim C6: size bounds of `match_size`. -/

theorem psize_pos : ∀ p : Pattern, 1 ≤ p.psize := by
  intro p
  cases p <;> simp

theorem psize_lt_of_mem : ∀ (l : List Pattern) (p : Pattern), p ∈ l → p.psize < psizeL l := by
  intro l
  induction l with
  | nil => intro p hp; simp at hp
  | cons a as ih =>
    intro p hp
    rcases List.mem_cons.mp hp with h | h
    · subst h; simp; omega
    · have := ih p h; simp; omega

theorem psizeL_lt_of_mem :
    ∀ (bs : List (List Pattern)) (b : List Pattern), b ∈ bs → psizeL b < psizeLL bs := by
  intro bs
  induction bs with
  | nil => intro b hb; simp at hb
  | cons a as ih =>
    intro b hb
    rcases List.mem_cons.mp hb with h | h
    · subst h; simp; omega
    · have := ih b h; simp; omega

theorem ng_ok_some :
    ∀ (pats : List Pattern) (fuel : Nat) (s : List Char) (n : Nat),
      ng_loop fuel pats s = .ok (some n) → n = 1 := by
  intro pats
  induction pats with
  | nil => intro fuel s n h; simp [ng_loop] at h; omega
  | cons p rest ih =>
    intro fuel s n h
    rw [ng_loop] at h
    split at h
    · exact ih fuel s n h
    · simp at h
    · simp at h
    · simp at h

theorem mtz_bound :
    ∀ (fuel : Nat) (pat : Pattern) (s : List Char) (acc m : Nat),
      mtz_loop fuel pat s acc = .ok m → m ≤ byteLen s := by
  intro fuel
  induction fuel with
  | zero => intro pat s acc m h; simp [mtz_loop] at h
  | succ f ih =>
    intro pat s acc m h
    rw [mtz_loop] at h
    split at h
    · simp at h
    · rename_i t hbd
      split at h
      · exact ih pat s _ m h
      · simp at h
        subst h
        exact byteDrop_some_le hbd
      · simp at h
      · simp at h

theorem smp_le :
    ∀ (rem : List Char) (fuel : Nat) (p : Pattern) (pos slen q : Nat),
      smp_loop fuel p rem pos slen = .ok (some q) → q = pos ∨ q < slen := by
  intro rem
  induction rem with
  | nil =>
    intro fuel p pos slen q h
    rw [smp_loop] at h
    split at h
    · simp at h
    · simp at h
    · simp at h; omega
    · simp at h
  | cons c rest ih =>
    intro fuel p pos slen q h
    rw [smp_loop] at h
    split at h
    · simp at h
    · simp at h
    · simp at h; omega
    · split at h
      · simp at h
      · rename_i hlt
        rcases ih fuel p _ slen q h with heq | hlt2
        · right; omega
        · right; exact hlt2

theorem pg_bound :
    ∀ (pats : List Pattern) (fuel : Nat) (s : List Char) (n : Nat),
      (∀ p ∈ pats, MSB p) → pg_loop fuel pats s = .ok (some n) → n ≤ byteLen s + 1 := by
  intro pats
  induction pats with
  | nil => intro fuel s n _ h; simp [pg_loop] at h
  | cons p rest ih =>
    intro fuel s n hps h
    rw [pg_loop] at h
    split at h
    · rename_i m hms
      simp at h
      subst h
      exact hps p (by simp) fuel s m hms
    · exact ih fuel s n (fun q hq => hps q (by simp [hq])) h
    · simp at h
    · simp at h

theorem seq_bound :
    ∀ (pats : List Pattern) (prev : Option Pattern) (fuel : Nat) (s : List Char) (cur n : Nat),
      (∀ p ∈ pats, MSB p) → (∀ pv, prev = some pv → MSB pv) → cur ≤ byteLen s + 1 →
      seq_loop fuel s pats prev cur = .ok (some n) → n ≤ byteLen s + 1 := by
  intro pats
  induction pats with
  | nil =>
    intro prev fuel s cur n hps hprev hcur h
    cases prev with
    | none => rw [seq_loop] at h; simp at h; omega
    | some pv =>
      rw [seq_loop] at h
      split at h
      · simp at h
      · rename_i t hbd
        split at h
        · rename_i size hms
          simp at h
          have h1 := hprev pv rfl fuel t size hms
          have h2 := byteDrop_some_len s cur t hbd
          omega
        · simp at h
        · simp at h
        · simp at h
  | cons pat rest ih =>
    intro prev fuel s cur n hps hprev hcur h
    have hpat : MSB pat := hps pat (by simp)
    have hrest : ∀ p ∈ rest, MSB p := fun q hq => hps q (by simp [hq])
    cases prev with
    | none =>
      rw [seq_loop] at h
      by_cases hc : cur > byteLen s
      · rw [if_pos hc] at h; simp at h
      · rw [if_neg hc] at h
        by_cases hq : pat.evaluate_with_next
        · rw [if_pos hq] at h
          exact ih (some pat) fuel s cur n hrest
            (fun pv hpv => by rw [Option.some_inj] at hpv; subst hpv; exact hpat)
            (by omega) h
        · rw [if_neg hq] at h
          split at h
          · simp at h
          · rename_i t2 hbd2
            split at h
            · rename_i size2 hms2
              have hb2 := byteDrop_some_len s cur t2 hbd2
              have hs2 := hpat fuel t2 size2 hms2
              exact ih none fuel s _ n hrest (by simp) (by omega) h
            · simp at h
            · simp at h
            · simp at h
    | some pv =>
      rw [seq_loop] at h
      by_cases hc : cur > byteLen s
      · rw [if_pos hc] at h; simp at h
      · rw [if_neg hc] at h
        by_cases hq : pat.evaluate_with_next
        · rw [if_pos hq] at h
          exact ih (some pat) fuel s cur n hrest
            (fun pv2 hpv => by rw [Option.some_inj] at hpv; subst hpv; exact hpat)
            (by omega) h
        · rw [if_neg hq] at h
          split at h
          · simp at h
          · rename_i t hbd
            split at h
            · simp at h
            · simp at h
            · simp at h
            · rename_i b hsmp
              split at h
              · simp at h
              · rename_i u hbt
                split at h
                · simp at h
                · simp at h
                · simp at h
                · rename_i size1 hms1
                  split at h
                  · simp at h
                  · rename_i t2 hbd2
                    split at h
                    · rename_i size2 hms2
                      have hble : b ≤ byteLen t := by
                        rcases smp_le t fuel pat 0 (byteLen t) b hsmp with h0 | hlt
                        · omega
                        · omega
                      have hu := byteTake_some_len t b u hbt
                      have hs1 := hprev pv rfl fuel u size1 hms1
                      have hbd' := byteDrop_some_len s cur t hbd
                      have hbd2' := byteDrop_some_len s _ t2 hbd2
                      have hs2 := hpat fuel t2 size2 hms2
                      exact ih none fuel s _ n hrest (by simp) (by omega) h
                    · simp at h
                    · simp at h
                    · simp at h

theorem alt_bound :
    ∀ (bs : List (List Pattern)) (fuel : Nat) (s : List Char) (n : Nat),
      (∀ b ∈ bs, ∀ p ∈ b, MSB p) → alt_loop fuel bs s = .ok (some n) → n ≤ byteLen s + 1 := by
  intro bs
  induction bs with
  | nil => intro fuel s n _ h; simp [alt_loop] at h
  | cons b rest ih =>
    intro fuel s n hbs h
    rw [alt_loop] at h
    split at h
    · rename_i m hseq
      simp at h
      subst h
      exact seq_bound b none fuel s 0 m (hbs b (by simp)) (by simp) (by omega) hseq
    · exact ih fuel s n (fun b' hb' => hbs b' (by simp [hb'])) h
    · simp at h
    · simp at h

/-- C6 (amended): a matched length reported by `match_size` is at most one
byte past the byte length of the text; the slack of one byte is reachable
(see the counterexample: a `NegativeGroup` on the empty string reports 1),
so the claimed bound `n ≤ byteLen s` is false but `n ≤ byteLen s + 1`
holds for every node and text. -/
theorem c6_amended :
    ∀ (p : Pattern) (fuel : Nat) (s : List Char) (n : Nat),
      Pattern.match_size fuel p s = .ok (some n) → n ≤ byteLen s + 1 := by
  have key : ∀ (N : Nat) (p : Pattern), p.psize ≤ N → MSB p := by
    intro N
    induction N with
    | zero =>
      intro p hp
      have := psize_pos p
      omega
    | succ N ih =>
      intro p hp fuel s n h
      cases p with
      | Lit c =>
        cases s with
        | nil => rw [Pattern.match_size] at h; simp at h
        | cons l rest =>
          rw [Pattern.match_size] at h
          split at h <;> simp at h
          simp [byteLen]
          omega
      | AlphaNumeric =>
        cases s with
        | nil => rw [Pattern.match_size] at h; simp at h
        | cons l rest =>
          rw [Pattern.match_size] at h
          split at h <;> simp at h
          simp [byteLen]
          omega
      | Digit =>
        cases s with
        | nil => rw [Pattern.match_size] at h; simp at h
        | cons l rest =>
          rw [Pattern.match_size] at h
          split at h <;> simp at h
          simp [byteLen]
          omega
      | Wildcard =>
        cases s with
        | nil => rw [Pattern.match_size] at h; simp at h
        | cons l rest =>
          rw [Pattern.match_size] at h
          simp at h
          simp [byteLen]
          omega
      | PGroup ps =>
        rw [Pattern.match_size] at h
        refine pg_bound ps fuel s n (fun q hq => ih q ?_) h
        have h1 := psize_lt_of_mem ps q hq
        simp at hp
        omega
      | NGroup ps =>
        rw [Pattern.match_size] at h
        have := ng_ok_some ps fuel s n h
        omega
      | MoreThanZero pat =>
        rw [Pattern.match_size] at h
        split at h
        · rename_i acc hmtz
          simp at h
          have := mtz_bound fuel pat s 0 acc hmtz
          omega
        · simp at h
        · simp at h
      | MoreThanOne pat =>
        rw [Pattern.match_size] at h
        split at h
        · simp at h
        · rename_i size hms
          split at h
          · rename_i acc hmtz
            simp at h
            have := mtz_bound fuel pat s size acc hmtz
            omega
          · simp at h
          · simp at h
        · simp at h
        · simp at h
      | ZeroOrOne pat =>
        rw [Pattern.match_size] at h
        split at h
        · rename_i size hms
          simp at h
          subst h
          have hle : pat.psize ≤ N := by simp at hp; omega
          exact ih pat hle fuel s size hms
        · simp at h
          omega
        · simp at h
        · simp at h
      | Alternation bs =>
        rw [Pattern.match_size] at h
        refine alt_bound bs fuel s n (fun b hb q hq => ih q ?_) h
        have h1 := psizeL_lt_of_mem bs b hb
        have h2 := psize_lt_of_mem b q hq
        simp at hp
        omega
  intro p fuel s n h
  exact key p.psize p (le_refl _) fuel s n h

/-- C6 witness: the bound applied at the wildcard node on a one-byte text. -/
theorem c6_witness : (1 : Nat) ≤ byteLen ['a'] + 1 :=
  c6_amended .Wildcard 0 ['a'] 1 (by simp [Pattern.match_size, Char.utf8Size])

/-! Claim C8: anchor semantics of the facade. -/

/-- C8: with a start anchor the sequence is evaluated from offset 0 with no
start-position search; with an end anchor the match is accepted exactly
when the consumed span ends at the byte length of the text; without an end
anchor it is accepted as soon as the sequence match succeeds. -/
theorem c8_anchor_semantics :
    ∀ (fuel : Nat) (e : Bool) (pats : List Pattern) (s : List Char),
      (Regex.is_match fuel ⟨true, e, pats⟩ s = match_from fuel e pats s 0) ∧
      (∀ cur, match_from fuel true pats s cur = .ok true ↔
        seq_loop fuel s pats none cur = .ok (some (byteLen s))) ∧
      (∀ cur, match_from fuel false pats s cur = .ok true ↔
        ∃ n, seq_loop fuel s pats none cur = .ok (some n)) := by
  intro fuel e pats s
  refine ⟨by simp [Regex.is_match], fun cur => ?_, fun cur => ?_⟩
  · cases hseq : seq_loop fuel s pats none cur with
    | ok v =>
      cases v with
      | none => simp [match_from, hseq]
      | some fin => simp [match_from, hseq]
    | abort => simp [match_from, hseq]
    | ofuel => simp [match_from, hseq]
  · cases hseq : seq_loop fuel s pats none cur with
    | ok v =>
      cases v with
      | none => simp [match_from, hseq]
      | some fin => simp [match_from, hseq]
    | abort => simp [match_from, hseq]
    | ofuel => simp [match_from, hseq]

/-! Claim C9: the wildcard consumes one whole grapheme. -/

/-- C9: the pattern `.` compiles to a single `Wildcard` node; on any
non-empty text it matches and the reported length is the full UTF-8 byte
width of the first grapheme, never a partial encoding. -/
theorem c9_wildcard :
    Regex.new ['.'] = some ⟨false, false, [.Wildcard]⟩ ∧
    ∀ (fuel : Nat) (c : Char) (rest : List Char),
      Regex.is_match fuel ⟨false, false, [.Wildcard]⟩ (c :: rest) = .ok true ∧
      Pattern.match_size fuel .Wildcard (c :: rest) = .ok (some c.utf8Size) := by
  refine ⟨rfl, fun fuel c rest => ⟨?_, ?_⟩⟩
  · simp [Regex.is_match, Pattern.search_match_pos, smp_loop, Pattern.match_size, match_from,
      seq_loop, Pattern.evaluate_with_next, byteDrop, byteLen]
  · simp [Pattern.match_size]

/-! Claim C7: semantics of `[^abc]`. -/

theorem byteDrop_utf8_cons (c : Char) (t : List Char) : byteDrop c.utf8Size (c :: t) = some t := by
  have hw := Char.utf8Size_pos c
  rw [show c.utf8Size = (c.utf8Size - 1) + 1 by omega, byteDrop]
  rw [if_neg (by omega)]
  rw [show c.utf8Size - 1 + 1 - c.utf8Size = 0 by omega, byteDrop]

theorem byteDrop_cons_next {s : List Char} {pos : Nat} {c : Char} {rest : List Char}
    (h : byteDrop pos s = some (c :: rest)) :
    byteDrop (pos + c.utf8Size) s = some rest := by
  rw [byteDrop_add s pos c.utf8Size _ h]
  exact byteDrop_utf8_cons c rest

theorem ms_ng_abc :
    ∀ (fuel : Nat) (t : List Char),
      Pattern.match_size fuel ngabc t =
        .ok (match t with
             | [] => some 1
             | c :: _ => if non_abc c then some 1 else none) := by
  intro fuel t
  cases t with
  | nil => simp [ngabc, Pattern.match_size, ng_loop]
  | cons c r =>
    by_cases ha : c = 'a'
    · simp [ngabc, Pattern.match_size, ng_loop, ha, non_abc]
    · by_cases hb : c = 'b'
      · simp [ngabc, Pattern.match_size, ng_loop, ha, hb, non_abc]
      · by_cases hc : c = 'c'
        · simp [ngabc, Pattern.match_size, ng_loop, ha, hb, hc, non_abc]
        · simp [ngabc, Pattern.match_size, ng_loop, ha, hb, hc, non_abc]

theorem smp_ng_abc :
    ∀ (rem : List Char) (pos : Nat) (fuel : Nat) (s : List Char),
      byteDrop pos s = some rem → rem ≠ [] →
      (rem.any non_abc = true →
        ∃ posq c2 r2, smp_loop fuel ngabc rem pos (byteLen s) = .ok (some posq) ∧
          byteDrop posq s = some (c2 :: r2) ∧ non_abc c2 = true) ∧
      (rem.any non_abc = false → smp_loop fuel ngabc rem pos (byteLen s) = .ok none) := by
  intro rem
  induction rem with
  | nil => intro pos fuel s _ hne; exact absurd rfl hne
  | cons c r ih =>
    intro pos fuel s hbd _
    have hlen := byteDrop_some_len s pos _ hbd
    have hlenc : pos + (c.utf8Size + byteLen r) = byteLen s := by simpa [byteLen] using hlen
    by_cases hc : non_abc c = true
    · constructor
      · intro _
        refine ⟨pos, c, r, ?_, hbd, hc⟩
        rw [smp_loop, ms_ng_abc]
        simp [hc]
      · intro habs
        simp [hc] at habs
    · simp only [Bool.not_eq_true] at hc
      have hnext := byteDrop_cons_next hbd
      constructor
      · intro hany
        have hrany : r.any non_abc = true := by simpa [List.any_cons, hc] using hany
        have hrne : r ≠ [] := by
          intro h0
          rw [h0] at hrany
          simp at hrany
        have hr0 : byteLen r ≠ 0 := fun h0 => hrne (byteLen_zero_iff.mp h0)
        have hnge : ¬ (pos + c.utf8Size ≥ byteLen s) := by omega
        obtain ⟨posq, c2, r2, hsmp, hbd2, hnon⟩ :=
          (ih (pos + c.utf8Size) fuel s hnext hrne).1 hrany
        refine ⟨posq, c2, r2, ?_, hbd2, hnon⟩
        rw [smp_loop, ms_ng_abc]
        simp [hc, hnge, hsmp]
      · intro hany
        have hrany : r.any non_abc = false := by simpa [List.any_cons, hc] using hany
        rw [smp_loop, ms_ng_abc]
        by_cases hge : pos + c.utf8Size ≥ byteLen s
        · simp [hc, hge]
        · have hrne : r ≠ [] := by
            intro h0
            have := byteLen_zero_iff.mpr h0
            omega
          have hrec := (ih (pos + c.utf8Size) fuel s hnext hrne).2 hrany
          simp [hc, hge, hrec]

/-- C7 (amended): `[^abc]` compiles to a single `NegativeGroup` node and
`is_match` returns `true` exactly when the line is empty (the documented
`NegativeGroup` defect makes it match the empty remainder) or the line
contains a grapheme other than `a`, `b`, `c`; the claim's behaviour on the
empty line is the only part that fails. -/
theorem c7_amended :
    Regex.new ['[', '^', 'a', 'b', 'c', ']'] = some ⟨false, false, [ngabc]⟩ ∧
    ∀ (fuel : Nat) (s : List Char),
      Regex.is_match fuel ⟨false, false, [ngabc]⟩ s = .ok (s.isEmpty || s.any non_abc) := by
  refine ⟨rfl, fun fuel s => ?_⟩
  cases s with
  | nil =>
    simp [Regex.is_match, Pattern.search_match_pos, smp_loop, Pattern.match_size, ngabc,
      ng_loop, byteDrop, byteLen, match_from, seq_loop, Pattern.evaluate_with_next]
  | cons c r =>
    have hmain := smp_ng_abc (c :: r) 0 fuel (c :: r) (by rw [byteDrop]) (by simp)
    cases hany : (c :: r).any non_abc with
    | false =>
      have hsmp := hmain.2 hany
      simp [Regex.is_match, Pattern.search_match_pos, hsmp, hany]
    | true =>
      obtain ⟨posq, c2, r2, hsmp, hbd, hnon⟩ := hmain.1 hany
      have hle := byteDrop_some_le hbd
      have hngt : ¬ (posq > byteLen (c :: r)) := by omega
      have hewn : ngabc.evaluate_with_next = false := rfl
      simp [Regex.is_match, Pattern.search_match_pos, hsmp, match_from, seq_loop, hngt, hewn,
        hbd, ms_ng_abc, hnon, hany]

/-! Claims C4 and C3: parser facts.  First, every `pick` consumes at least
one character, the parser never grows its leftover text, and the fuel
supplied by `parse_pattern` is sufficient. -/

theorem pick_length :
    ∀ (expr : List Char) (chr : PatternChar) (rest : List Char),
      PatternChar.pick expr = some (chr, rest) → rest.length < expr.length := by
  intro expr chr rest h
  cases expr with
  | nil => simp [PatternChar.pick] at h
  | cons c cs =>
    rw [PatternChar.pick.eq_def] at h
    simp only [] at h
    by_cases h1 : c = '\\'
    · rw [if_pos h1] at h
      cases cs with
      | nil => cases h
      | cons l r2 =>
        simp only [] at h
        by_cases h2 : l = 'w'
        · rw [if_pos h2] at h
          simp at h
          obtain ⟨-, h3⟩ := h
          subst h3
          simp
          omega
        · rw [if_neg h2] at h
          by_cases h3 : l = 'd'
          · rw [if_pos h3] at h
            simp at h
            obtain ⟨-, h4⟩ := h
            subst h4
            simp
            omega
          · rw [if_neg h3] at h
            simp at h
            obtain ⟨-, h4⟩ := h
            subst h4
            simp
            omega
    · rw [if_neg h1] at h
      by_cases h2 : c = '.'
      · rw [if_pos h2] at h
        simp at h
        obtain ⟨-, h3⟩ := h
        subst h3
        simp
      · rw [if_neg h2] at h
        by_cases h3 : c = '['
        · rw [if_pos h3] at h
          by_cases h4 : cs.head? = some '^'
          · rw [if_pos h4] at h
            simp at h
            obtain ⟨-, h5⟩ := h
            subst h5
            have := List.length_tail cs
            simp
            omega
          · rw [if_neg h4] at h
            simp at h
            obtain ⟨-, h5⟩ := h
            subst h5
            simp
        · rw [if_neg h3] at h
          by_cases h4 : c = ']'
          · rw [if_pos h4] at h
            simp at h
            obtain ⟨-, h5⟩ := h
            subst h5
            simp
          · rw [if_neg h4] at h
            by_cases h5 : c = '+'
            · rw [if_pos h5] at h
              simp at h
              obtain ⟨-, h6⟩ := h
              subst h6
              simp
            · rw [if_neg h5] at h
              by_cases h6 : c = '*'
              · rw [if_pos h6] at h
                simp at h
                obtain ⟨-, h7⟩ := h
                subst h7
                simp
              · rw [if_neg h6] at h
                by_cases h7 : c = '?'
                · rw [if_pos h7] at h
                  simp at h
                  obtain ⟨-, h8⟩ := h
                  subst h8
                  simp
                · rw [if_neg h7] at h
                  by_cases h8 : c = '('
                  · rw [if_pos h8] at h
                    simp at h
                    obtain ⟨-, h9⟩ := h
                    subst h9
                    simp
                  · rw [if_neg h8] at h
                    by_cases h9 : c = ')'
                    · rw [if_pos h9] at h
                      simp at h
                      obtain ⟨-, h10⟩ := h
                      subst h10
                      simp
                    · rw [if_neg h9] at h
                      by_cases h10 : c = '|'
                      · rw [if_pos h10] at h
                        simp at h
                        obtain ⟨-, h11⟩ := h
                        subst h11
                        simp
                      · rw [if_neg h10] at h
                        simp at h
                        obtain ⟨-, h11⟩ := h
                        subst h11
                        simp

theorem parse_step_shape :
    ∀ fuel : Nat,
      (∀ expr acc r, parse_step fuel (.go expr acc) = some r →
        ∃ pp, r = .go pp ∧ pp.remaining.length ≤ expr.length ∧
          (pp.last_char.isSome → pp.remaining.length < expr.length)) ∧
      (∀ expr inners r, parse_step fuel (.alt expr inners) = some r →
        ∃ irs rem, r = .alt irs rem ∧ rem.length ≤ expr.length) := by
  intro fuel
  induction fuel with
  | zero =>
    constructor
    · intro expr acc r h; simp [parse_step] at h
    · intro expr inners r h; simp [parse_step] at h
  | succ f ih =>
    obtain ⟨ihgo, ihalt⟩ := ih
    constructor
    · intro expr acc r h
      rw [parse_step] at h
      cases hp : PatternChar.pick expr with
      | none =>
        rw [hp] at h
        simp at h
        exact ⟨⟨acc, expr, none⟩, h.symm, le_refl _, by simp⟩
      | some pr =>
        obtain ⟨chr, rest⟩ := pr
        have hlen := pick_length expr chr rest hp
        rw [hp] at h
        cases chr <;> simp only [] at h
        case Itself p =>
          obtain ⟨pp, rfl, hb, -⟩ := ihgo rest _ r h
          exact ⟨pp, rfl, by omega, fun _ => by omega⟩
        case MoreThanZero =>
          obtain ⟨pp, rfl, hb, -⟩ := ihgo rest _ r h
          exact ⟨pp, rfl, by omega, fun _ => by omega⟩
        case MoreThanOne =>
          obtain ⟨pp, rfl, hb, -⟩ := ihgo rest _ r h
          exact ⟨pp, rfl, by omega, fun _ => by omega⟩
        case ZeroOrOne =>
          obtain ⟨pp, rfl, hb, -⟩ := ihgo rest _ r h
          exact ⟨pp, rfl, by omega, fun _ => by omega⟩
        case PGroupOpen =>
          cases hst : parse_step f (.go rest []) with
          | none => rw [hst] at h; cases h
          | some r1 =>
            obtain ⟨pp1, rfl, hb1, -⟩ := ihgo rest [] r1 hst
            rw [hst] at h
            simp only [] at h
            obtain ⟨pp, rfl, hb, -⟩ := ihgo _ _ r h
            exact ⟨pp, rfl, by omega, fun _ => by omega⟩
        case NGroupOpen =>
          cases hst : parse_step f (.go rest []) with
          | none => rw [hst] at h; cases h
          | some r1 =>
            obtain ⟨pp1, rfl, hb1, -⟩ := ihgo rest [] r1 hst
            rw [hst] at h
            simp only [] at h
            obtain ⟨pp, rfl, hb, -⟩ := ihgo _ _ r h
            exact ⟨pp, rfl, by omega, fun _ => by omega⟩
        case GroupClose =>
          simp at h
          refine ⟨⟨acc, rest, some .GroupClose⟩, h.symm, ?_, fun _ => ?_⟩ <;> simp <;> omega
        case AltOpen =>
          cases hst : parse_step f (.alt rest []) with
          | none => rw [hst] at h; cases h
          | some r1 =>
            obtain ⟨irs, rem, rfl, hb1⟩ := ihalt rest [] r1 hst
            rw [hst] at h
            simp only [] at h
            obtain ⟨pp, rfl, hb, -⟩ := ihgo _ _ r h
            exact ⟨pp, rfl, by omega, fun _ => by omega⟩
        case AltClose =>
          simp at h
          refine ⟨⟨acc, rest, some .AltClose⟩, h.symm, ?_, fun _ => ?_⟩ <;> simp <;> omega
        case AltDelimiter =>
          simp at h
          refine ⟨⟨acc, rest, some .AltDelimiter⟩, h.symm, ?_, fun _ => ?_⟩ <;> simp <;> omega
    · intro expr inners r h
      rw [parse_step] at h
      cases hst : parse_step f (.go expr []) with
      | none => rw [hst] at h; cases h
      | some r1 =>
        obtain ⟨pp1, rfl, hb1, hstrict⟩ := ihgo expr [] r1 hst
        rw [hst] at h
        simp only [] at h
        by_cases hd : is_alt_delimiter pp1.last_char = true
        · rw [if_pos hd] at h
          obtain ⟨irs, rem, rfl, hb⟩ := ihalt _ _ r h
          exact ⟨irs, rem, rfl, by omega⟩
        · rw [if_neg hd] at h
          simp at h
          exact ⟨inners ++ [pp1.inner], pp1.remaining, h.symm, hb1⟩

theorem parse_step_progress :
    ∀ fuel : Nat,
      (∀ expr acc, 2 * expr.length + 1 ≤ fuel → (parse_step fuel (.go expr acc)).isSome = true) ∧
      (∀ expr inners, 2 * expr.length + 2 ≤ fuel →
        (parse_step fuel (.alt expr inners)).isSome = true) := by
  intro fuel
  induction fuel with
  | zero =>
    constructor
    · intro expr acc hf; omega
    · intro expr inners hf; omega
  | succ f ih =>
    obtain ⟨ihgo, ihalt⟩ := ih
    constructor
    · intro expr acc hf
      rw [parse_step]
      cases hp : PatternChar.pick expr with
      | none => simp
      | some pr =>
        obtain ⟨chr, rest⟩ := pr
        have hlen := pick_length expr chr rest hp
        cases chr <;> simp only []
        case Itself p => exact ihgo rest (acc ++ [p]) (by omega)
        case MoreThanZero => exact ihgo rest (push_quant Pattern.MoreThanZero acc) (by omega)
        case MoreThanOne => exact ihgo rest (push_quant Pattern.MoreThanOne acc) (by omega)
        case ZeroOrOne => exact ihgo rest (push_quant Pattern.ZeroOrOne acc) (by omega)
        case PGroupOpen =>
          have h1 := ihgo rest [] (by omega)
          cases hst : parse_step f (.go rest []) with
          | none => rw [hst] at h1; simp at h1
          | some r1 =>
            obtain ⟨pp1, rfl, hb1, -⟩ := (parse_step_shape f).1 rest [] r1 hst
            simp only []
            exact ihgo pp1.remaining (acc ++ [.PGroup pp1.inner]) (by omega)
        case NGroupOpen =>
          have h1 := ihgo rest [] (by omega)
          cases hst : parse_step f (.go rest []) with
          | none => rw [hst] at h1; simp at h1
          | some r1 =>
            obtain ⟨pp1, rfl, hb1, -⟩ := (parse_step_shape f).1 rest [] r1 hst
            simp only []
            exact ihgo pp1.remaining (acc ++ [.NGroup pp1.inner]) (by omega)
        case GroupClose => simp
        case AltOpen =>
          have h1 := ihalt rest [] (by omega)
          cases hst : parse_step f (.alt rest []) with
          | none => rw [hst] at h1; simp at h1
          | some r1 =>
            obtain ⟨irs, rem, rfl, hb1⟩ := (parse_step_shape f).2 rest [] r1 hst
            simp only []
            exact ihgo rem (acc ++ [.Alternation irs]) (by omega)
        case AltClose => simp
        case AltDelimiter => simp
    · intro expr inners hf
      rw [parse_step]
      have h1 := ihgo expr [] (by omega)
      cases hst : parse_step f (.go expr []) with
      | none => rw [hst] at h1; simp at h1
      | some r1 =>
        obtain ⟨pp1, rfl, hb1, hstrict⟩ := (parse_step_shape f).1 expr [] r1 hst
        simp only []
        by_cases hd : is_alt_delimiter pp1.last_char = true
        · have hsome : pp1.last_char.isSome = true := by
            cases hlc : pp1.last_char with
            | none => rw [hlc] at hd; simp [is_alt_delimiter] at hd
            | some x => simp
          have hlt := hstrict hsome
          rw [if_pos hd]
          exact ihalt pp1.remaining (inners ++ [pp1.inner]) (by omega)
        · rw [if_neg hd]
          simp

theorem parse_pattern_spec (expr : List Char) :
    parse_step (2 * expr.length + 1) (.go expr []) = some (.go (parse_pattern expr)) := by
  have h := (parse_step_progress (2 * expr.length + 1)).1 expr [] (by omega)
  cases hst : parse_step (2 * expr.length + 1) (.go expr []) with
  | none => rw [hst] at h; simp at h
  | some r =>
    obtain ⟨pp, rfl, -, -⟩ := (parse_step_shape _).1 expr [] r hst
    simp [parse_pattern, hst]

/-- C4 (amended): construction fails (the source panics; modelled as
`none`) exactly when the parser leaves pattern text unconsumed after the
anchors are stripped; an unrecognized escape `\c` is not an error: for any
`c` other than `w` and `d` (and other than `$`, which is stripped as an
end anchor first) the pattern `\c` compiles to the literal `c`. -/
theorem c4_amended :
    (∀ expr : List Char, Regex.new expr = none ↔
      (parse_pattern (strip_anchors expr).2.2).remaining ≠ []) ∧
    (∀ c : Char, c ≠ 'w' → c ≠ 'd' → c ≠ '$' →
      Regex.new ['\\', c] = some ⟨false, false, [.Lit c]⟩) := by
  constructor
  · intro expr
    rcases hrem : (parse_pattern (strip_anchors expr).2.2).remaining with _ | ⟨a, as⟩
    · simp [Regex.new, hrem]
    · simp [Regex.new, hrem]
  · intro c hw hd hdol
    have hds : (c == '$') = false := beq_eq_false_iff_ne.mpr hdol
    simp [Regex.new, strip_anchors, parse_pattern, parse_step, PatternChar.pick, hw, hd, hds]

/-- C4 witness: the amended statement applied to the escape `\q`. -/
theorem c4_witness : Regex.new ['\\', 'q'] = some ⟨false, false, [.Lit 'q']⟩ :=
  c4_amended.2 'q' (by decide) (by decide) (by decide)

/-! Claim C3: all-literal patterns. -/

theorem lit_parse :
    ∀ (p : List Char) (fuel : Nat) (acc : List Pattern), lit_only p = true → p.length < fuel →
      parse_step fuel (.go p acc) = some (.go ⟨acc ++ p.map .Lit, [], none⟩) := by
  intro p
  induction p with
  | nil =>
    intro fuel acc _ hf
    cases fuel with
    | zero => omega
    | succ f => simp [parse_step, PatternChar.pick]
  | cons c cs ih =>
    intro fuel acc hlit hf
    cases fuel with
    | zero => omega
    | succ f =>
      rw [lit_only, List.all_cons, Bool.and_eq_true] at hlit
      obtain ⟨hc, hcs⟩ := hlit
      simp only [specials] at hc
      simp at hc
      obtain ⟨h1, h2, h3, h4, h5, h6, h7, h8, h9, h10, h11, h12⟩ := hc
      rw [parse_step]
      rw [show PatternChar.pick (c :: cs) = some (.Itself (.Lit c), cs) by
        rw [PatternChar.pick.eq_def]
        simp only []
        rw [if_neg h1, if_neg h2, if_neg h3, if_neg h4, if_neg h5, if_neg h6, if_neg h7,
          if_neg h8, if_neg h9, if_neg h10]]
      simp only []
      have hf2 : cs.length < f := by simp at hf; omega
      rw [ih f (acc ++ [Pattern.Lit c]) (by rw [lit_only]; exact hcs) hf2]
      simp

theorem lit_regex_new :
    ∀ p : List Char, lit_only p = true → Regex.new p = some ⟨false, false, p.map .Lit⟩ := by
  intro p hlit
  have hall : ∀ c ∈ p, (!(specials.contains c)) = true := by
    rw [lit_only, List.all_eq_true] at hlit
    exact hlit
  have hhead : (p.head? == some '^') = false := by
    cases p with
    | nil => rfl
    | cons c cs =>
      have hc := hall c (by simp)
      simp only [specials] at hc
      simp at hc
      obtain ⟨-, -, -, -, -, -, -, -, -, -, h11, -⟩ := hc
      simp only [List.head?]
      rw [beq_eq_false_iff_ne]
      intro hcon
      exact h11 (Option.some_inj.mp hcon)
  have hlast : (p.getLast? == some '$') = false := by
    cases hgl : p.getLast? with
    | none => rfl
    | some c =>
      have hcp : c ∈ p := by
        obtain ⟨hne, heq⟩ := List.mem_getLast?_eq_getLast (x := c) (by rw [hgl]; exact rfl)
        subst heq
        exact List.getLast_mem hne
      have hc := hall c hcp
      simp only [specials] at hc
      simp at hc
      obtain ⟨-, -, -, -, -, -, -, -, -, -, -, h12⟩ := hc
      rw [beq_eq_false_iff_ne]
      intro hcon
      exact h12 (Option.some_inj.mp hcon)
  have hstrip : strip_anchors p = (false, false, p) := by
    simp [strip_anchors, hhead, hlast]
  have hpp : parse_pattern p = ⟨p.map .Lit, [], none⟩ := by
    have h1 := parse_pattern_spec p
    have h2 := lit_parse p (2 * p.length + 1) [] hlit (by omega)
    rw [h1] at h2
    simp at h2
    rw [h2]
  simp [Regex.new, hstrip, hpp]

theorem seq_lit :
    ∀ (q : List Char) (fuel : Nat) (s : List Char) (cur : Nat) (t : List Char) (n : Nat),
      byteDrop cur s = some t → seq_loop fuel s (q.map .Lit) none cur = .ok (some n) →
      q.isPrefixOf t = true := by
  intro q
  induction q with
  | nil => intro fuel s cur t n _ _; simp [List.isPrefixOf]
  | cons c q2 ih =>
    intro fuel s cur t n hbd h
    rw [List.map_cons, seq_loop] at h
    split at h
    · cases h
    · rw [if_neg (by simp [Pattern.evaluate_with_next])] at h
      rw [hbd] at h
      simp only [] at h
      cases t with
      | nil =>
        rw [Pattern.match_size] at h
        cases h
      | cons c2 t2 =>
        rw [Pattern.match_size] at h
        by_cases hcc : c2 = c
        · rw [if_pos hcc] at h
          simp only [] at h
          have hnext : byteDrop (cur + c2.utf8Size) s = some t2 := byteDrop_cons_next hbd
          have := ih fuel s (cur + c2.utf8Size) t2 n hnext h
          subst hcc
          simp [List.isPrefixOf, this]
        · rw [if_neg hcc] at h
          simp only [] at h
          cases h

theorem smp_boundary :
    ∀ (rem : List Char) (pos : Nat) (fuel : Nat) (p : Pattern) (slen q : Nat) (s : List Char),
      byteDrop pos s = some rem → smp_loop fuel p rem pos slen = .ok (some q) →
      ∃ u, byteDrop q s = some u := by
  intro rem
  induction rem with
  | nil =>
    intro pos fuel p slen q s hbd h
    rw [smp_loop] at h
    split at h
    · cases h
    · cases h
    · simp at h
      subst h
      exact ⟨[], hbd⟩
    · cases h
  | cons c rest ih =>
    intro pos fuel p slen q s hbd h
    rw [smp_loop] at h
    split at h
    · cases h
    · cases h
    · simp at h
      subst h
      exact ⟨c :: rest, hbd⟩
    · split at h
      · cases h
      · exact ih (pos + c.utf8Size) fuel p slen q s (byteDrop_cons_next hbd) h

theorem strContains_of_isPrefixOf :
    ∀ (s t p : List Char) (n : Nat),
      byteDrop n s = some t → p.isPrefixOf t = true → strContains s p = true := by
  intro s t p n hbd hpre
  obtain ⟨k, hk, hdrop⟩ := byteDrop_drop s n t hbd
  simp only [strContains, List.any_eq_true]
  refine ⟨k, ?_, ?_⟩
  · simp only [List.mem_range]
    omega
  · rw [hdrop]
    exact hpre

/-- C3 (amended): an all-literal pattern `p` compiles to the sequence of
its literal nodes, and a successful `is_match` implies the line contains
`p` as a substring; the converse direction of the claim is false (see the
counterexample): the facade matches only at the first position located by
the first literal and never retries. -/
theorem c3_amended :
    ∀ (p : List Char) (fuel : Nat) (s : List Char),
      lit_only p = true →
      Regex.new p = some ⟨false, false, p.map .Lit⟩ ∧
      (Regex.is_match fuel ⟨false, false, p.map .Lit⟩ s = .ok true → strContains s p = true) := by
  intro p fuel s hlit
  refine ⟨lit_regex_new p hlit, fun h => ?_⟩
  cases p with
  | nil => simp [Regex.is_match] at h
  | cons c cs =>
    rw [Regex.is_match] at h
    simp only [List.map_cons, List.head?] at h
    rw [if_neg (show ¬((false : Bool) = true) by simp)] at h
    rw [Pattern.search_match_pos] at h
    cases hsp : smp_loop fuel (.Lit c) s 0 (byteLen s) with
    | abort => rw [hsp] at h; cases h
    | ofuel => rw [hsp] at h; cases h
    | ok v =>
      cases v with
      | none => rw [hsp] at h; simp at h
      | some pos =>
        rw [hsp] at h
        simp only [] at h
        obtain ⟨u, hu⟩ := smp_boundary s 0 fuel (.Lit c) (byteLen s) pos s (by rw [byteDrop]) hsp
        rw [match_from] at h
        cases hseq : seq_loop fuel s (.Lit c :: cs.map .Lit) none pos with
        | abort => rw [hseq] at h; cases h
        | ofuel => rw [hseq] at h; cases h
        | ok w =>
          cases w with
          | none => rw [hseq] at h; simp at h
          | some fin =>
            exact strContains_of_isPrefixOf s u (c :: cs) pos hu
              (seq_lit (c :: cs) fuel s pos u fin hu hseq)

/-- C3 witness: the amended statement applied at an input where the first
occurrence of the first literal is the start of a full match. -/
theorem c3_witness : strContains ['x', 'a', 'b'] ['a', 'b'] = true :=
  (c3_amended ['a', 'b'] 5 ['x', 'a', 'b'] (by decide)).2 (by
    simp [Regex.is_match, Pattern.search_match_pos, smp_loop, Pattern.match_size,
      byteDrop, byteLen, match_from, seq_loop, Pattern.evaluate_with_next, Char.utf8Size])
